import Mathlib

/-!
Verification development for the differentially-private covariance release
engine demonstrated by `analysis/covariance.ipynb`.  The notebook calls into
the `opendp.whitenoise.core` library; the engine itself (bounds descriptors,
analysis graph and validator, sensitivity calculator, noise mechanism,
privacy accountant, release manager) is not part of this repository, so the
definitions below model those components from the specification, faithfully
to its words.  Rational numbers stand in for the engine's real-valued
arithmetic; the noise mechanism's Gaussian branch is stated over the reals.
-/

namespace DPCov

/-- Modelled from the spec: a Bounds Descriptor — per-column declared lower
bound, upper bound and declared sample size `n`; the engine's descriptor type
is not in this repository. -/
structure Bounds where
  lower : ℚ
  upper : ℚ
  n : ℕ
deriving DecidableEq

/-- The declared range `upper - lower` of a column. -/
def Bounds.range (b : Bounds) : ℚ := b.upper - b.lower

/-- Default descriptor used for out-of-range list access. -/
def defaultBounds : Bounds := ⟨0, 0, 0⟩

/-- Modelled from the spec: the Sensitivity Calculator's scalar/pairwise
covariance case — `r1 * r2 / n` for column ranges `r1`, `r2` and sample size
`n`; the calculator is not in this repository. -/
def pairSensitivity (b1 b2 : Bounds) (n : ℕ) : ℚ :=
  b1.range * b2.range / n

/-- Modelled from the spec: the Sensitivity Calculator's per-entry formula for
a self-covariance matrix — `r_i ^ 2 / n` on the diagonal and `r_i * r_j / n`
off it; the calculator is not in this repository. -/
def selfEntrySensitivity (bs : List Bounds) (n : ℕ) (i j : ℕ) : ℚ :=
  if i = j then (bs.getD i defaultBounds).range ^ 2 / n
  else (bs.getD i defaultBounds).range * (bs.getD j defaultBounds).range / n

/-- Modelled from the spec: the Sensitivity Calculator's per-entry formula for
a cross-covariance matrix — `r_i * r_j / n` for left column `i` against right
column `j`; the calculator is not in this repository. -/
def crossEntrySensitivity (ls rs : List Bounds) (n : ℕ) (i j : ℕ) : ℚ :=
  (ls.getD i defaultBounds).range * (rs.getD j defaultBounds).range / n

/-- Build an `rows × cols` matrix, entry by entry, from an entry function. -/
def buildMatrix (rows cols : ℕ) (f : ℕ → ℕ → ℚ) : List (List ℚ) :=
  (List.range rows).map fun i => (List.range cols).map fun j => f i j

/-- Entry `(i, j)` of a matrix represented as a list of rows. -/
def entry (m : List (List ℚ)) (i j : ℕ) : ℚ :=
  (m.getD i []).getD j 0

/-- Modelled from the spec: the sensitivity of a self-covariance matrix is
assembled per entry from `selfEntrySensitivity`, not once for the matrix. -/
def selfSensitivityMatrix (bs : List Bounds) (n : ℕ) : List (List ℚ) :=
  buildMatrix bs.length bs.length fun i j => selfEntrySensitivity bs n i j

/-- Modelled from the spec: the sensitivity of a cross-covariance matrix is
assembled per entry from `crossEntrySensitivity`. -/
def crossSensitivityMatrix (ls rs : List Bounds) (n : ℕ) : List (List ℚ) :=
  buildMatrix ls.length rs.length fun i j => crossEntrySensitivity ls rs n i j

/-- Modelled from the spec: the Covariance Computer's column mean; the
computer is not in this repository. -/
def mean (xs : List ℚ) : ℚ := xs.sum / (xs.length : ℚ)

/-- Modelled from the spec: the Covariance Computer's pairwise statistic,
`sum((x_i - mean x) * (y_i - mean y))` divided by the single fixed
normalization constant `n - 1` (the `np.cov` convention the notebook's
reference computation uses); the computer is not in this repository. -/
def covPair (xs ys : List ℚ) : ℚ :=
  (List.zipWith (fun a b => (a - mean xs) * (b - mean ys)) xs ys).sum /
    ((xs.length : ℚ) - 1)

/-- Modelled from the spec: the Covariance Computer's self-covariance matrix,
every entry the pairwise statistic of the corresponding column pair. -/
def covMatrixOf (cols : List (List ℚ)) : List (List ℚ) :=
  buildMatrix cols.length cols.length fun i j =>
    covPair (cols.getD i []) (cols.getD j [])

/-- Modelled from the spec: the Covariance Computer's cross-covariance matrix
of a left and a right dataset. -/
def crossMatrixOf (ls rs : List (List ℚ)) : List (List ℚ) :=
  buildMatrix ls.length rs.length fun i j =>
    covPair (ls.getD i []) (rs.getD j [])

/-- Modelled from the spec: the scalar entry point of `dp_covariance` — the
released value is the true pairwise statistic plus calibrated noise, wrapped
as a 1 × 1 array; the engine is not in this repository.  `z` is the unit
noise draw. -/
def releaseScalar (xs ys : List ℚ) (b1 b2 : Bounds) (n : ℕ) (eps : ℚ)
    (z : ℚ) : List (List ℚ) :=
  [[covPair xs ys + pairSensitivity b1 b2 n / eps * z]]

/-- Modelled from the spec: the self-covariance matrix entry point of
`dp_covariance` — each entry receives its own independently drawn noise value
(draw index `i * k + j` of the stream `noise`). -/
def releaseMatrix (cols : List (List ℚ)) (bs : List Bounds) (n : ℕ)
    (eps : ℚ) (noise : ℕ → ℚ) : List (List ℚ) :=
  buildMatrix cols.length cols.length fun i j =>
    covPair (cols.getD i []) (cols.getD j []) +
      selfEntrySensitivity bs n i j / eps * noise (i * cols.length + j)

/-- Modelled from the spec: the cross-covariance matrix entry point of
`dp_covariance`, each entry with its own independent draw. -/
def releaseCross (ls rs : List (List ℚ)) (lb rb : List Bounds) (n : ℕ)
    (eps : ℚ) (noise : ℕ → ℚ) : List (List ℚ) :=
  buildMatrix ls.length rs.length fun i j =>
    covPair (ls.getD i []) (rs.getD j []) +
      crossEntrySensitivity lb rb n i j / eps * noise (i * rs.length + j)

/-- Modelled from the spec: the Noise Mechanism's Gaussian scale, the standard
(epsilon, delta)-DP Gaussian-mechanism formula
`s * sqrt(2 * ln(1.25 / delta)) / eps`; the mechanism is not in this
repository. -/
noncomputable def gaussSigma (s eps delta : ℝ) : ℝ :=
  s * Real.sqrt (2 * Real.log (1.25 / delta)) / eps

/-- Modelled from the spec: the Noise Mechanism `add_noise` — given the true
value, the scalar sensitivity, epsilon and delta, it perturbs the value with
a zero-mean draw: scale `s / eps` times the unit Laplace draw `z` when
`delta = 0`, and the Gaussian-mechanism scale times the unit Gaussian draw
`z` when `delta > 0`; the mechanism is not in this repository. -/
noncomputable def add_noise (v s eps delta z : ℝ) : ℝ :=
  if delta = 0 then v + s / eps * z else v + gaussSigma s eps delta * z

/-- The scalar release printed by the notebook's demonstration for the
age/income pair at epsilon 5000. -/
def demoReleasedScalar : ℚ := 94604.90164818

/-- Modelled from the spec: the demonstration's true age/income covariance
under the `np.cov` (divide by `n - 1`) convention, asserted by Scenario A to
be approximately 94604.9; the demonstration's data file is not in this
repository. -/
def demoTrueCov : ℚ := 94604.9

/-- Modelled from the spec: the operation kinds of Analysis Graph nodes;
the graph type is not in this repository.  `cast` and `select` are the
pass-through operations through which bounds are inherited unchanged. -/
inductive NodeKind
  | source
  | cast
  | select
  | covariance
deriving DecidableEq

/-- Modelled from the spec: an Analysis Graph node — operation kind, input
node indices, and an optional attached Bounds Descriptor. -/
structure Node where
  kind : NodeKind
  inputs : List ℕ
  bounds : Option Bounds
deriving DecidableEq

/-- Default node used for out-of-range list access. -/
def defaultNode : Node := ⟨NodeKind.source, [], none⟩

/-- Modelled from the spec: bounds resolution — a node resolves to the bounds
directly attached to it, or to bounds inherited unchanged through a
pass-through (cast / column-select) operation from its single input.  The
first argument is fuel; input indices are strictly below the owner's index,
so fuel `g.length + 1` always suffices. -/
def resolveBounds (g : List Node) : ℕ → ℕ → Option Bounds
  | 0, _ => none
  | fuel + 1, i =>
    match g[i]? with
    | none => none
    | some nd =>
      match nd.bounds with
      | some b => some b
      | none =>
        match nd.kind, nd.inputs with
        | NodeKind.cast, [j] => resolveBounds g fuel j
        | NodeKind.select, [j] => resolveBounds g fuel j
        | _, _ => none

/-- Modelled from the spec: the validation pass — search the ancestors of a
requested release node for the first node that is neither a covariance
aggregator nor resolvable to bounds metadata, returning its index. -/
def offending (g : List Node) : ℕ → ℕ → Option ℕ
  | 0, i => some i
  | fuel + 1, i =>
    match g[i]? with
    | none => some i
    | some nd =>
      if nd.kind = NodeKind.covariance ∨
          (resolveBounds g (g.length + 1) i).isSome = true then
        nd.inputs.findSome? (offending g fuel)
      else some i

/-- Modelled from the spec: a PrivacyUsage — epsilon and optional delta
(0 for pure-epsilon mechanisms). -/
structure PrivacyUsage where
  eps : ℚ
  delta : ℚ
deriving DecidableEq

/-- Modelled from the spec: a release request attaching a PrivacyUsage to one
graph node. -/
structure Request where
  node : ℕ
  usage : PrivacyUsage
deriving DecidableEq

/-- Modelled from the spec: the engine's error taxonomy (§7). -/
inductive DPError
  | invalidBounds
  | duplicateBounds
  | missingBounds (node : ℕ)
  | unknownInput
  | budgetExceeded
  | dimensionMismatch
deriving DecidableEq

/-- Modelled from the spec: `finalize`'s validation pass — the first release
request whose ancestry contains an unresolvable node makes validation fail
with `MissingBoundsError` naming that node. -/
def validate (g : List Node) (reqs : List Request) : Except DPError Unit :=
  match reqs.findSome? (fun r => offending g (g.length + 1) r.node) with
  | some k => Except.error (DPError.missingBounds k)
  | none => Except.ok ()

/-- Modelled from the spec: the Privacy Accountant's session state —
cumulative epsilon/delta spend and the optional declared ceiling. -/
structure Session where
  spentEps : ℚ
  spentDelta : ℚ
  ceiling : Option PrivacyUsage
deriving DecidableEq

/-- Modelled from the spec: the Privacy Accountant's `debit` — fails with
`BudgetExceededError` if a declared ceiling would be exceeded, otherwise adds
the usage to the session total. -/
def debit (s : Session) (u : PrivacyUsage) : Except DPError Session :=
  match s.ceiling with
  | none =>
      Except.ok ⟨s.spentEps + u.eps, s.spentDelta + u.delta, s.ceiling⟩
  | some c =>
      if s.spentEps + u.eps ≤ c.eps ∧ s.spentDelta + u.delta ≤ c.delta then
        Except.ok ⟨s.spentEps + u.eps, s.spentDelta + u.delta, s.ceiling⟩
      else Except.error DPError.budgetExceeded

/-- Execution state threaded by the Release Manager: the accountant's session
plus the index of the next unused draw of the noise stream. -/
structure ExecState where
  sess : Session
  draws : ℕ
deriving DecidableEq

/-- Modelled from the spec: the Release Manager's handling of one scalar
covariance release request — resolve the bounds of the two input columns,
compute sensitivity and the exact statistic, debit the accountant, and only
then perturb with the next draw of the noise stream. -/
def execRequest (g : List Node) (data : ℕ → List ℚ) (noise : ℕ → ℚ)
    (st : ExecState) (r : Request) : Except DPError (ExecState × ℚ) :=
  match g[r.node]? with
  | none => Except.error DPError.unknownInput
  | some nd =>
    match nd.inputs with
    | [i, j] =>
      match resolveBounds g (g.length + 1) i,
          resolveBounds g (g.length + 1) j with
      | some bi, some bj =>
        match debit st.sess r.usage with
        | Except.error e => Except.error e
        | Except.ok sess2 =>
          Except.ok (⟨sess2, st.draws + 1⟩,
            covPair (data i) (data j) +
              pairSensitivity bi bj bi.n / r.usage.eps * noise st.draws)
      | _, _ => Except.error (DPError.missingBounds r.node)
    | _ => Except.error DPError.dimensionMismatch

/-- Modelled from the spec: the Release Manager's execution loop — requests
are executed in order, aborting on the first error with no partial output. -/
def execAll (g : List Node) (data : ℕ → List ℚ) (noise : ℕ → ℚ) :
    ExecState → List Request → Except DPError (ExecState × List ℚ)
  | st, [] => Except.ok (st, [])
  | st, r :: rs =>
    match execRequest g data noise st r with
    | Except.error e => Except.error e
    | Except.ok (st2, v) =>
      match execAll g data noise st2 rs with
      | Except.error e => Except.error e
      | Except.ok (st3, vs) => Except.ok (st3, v :: vs)

/-- Modelled from the spec: `finalize` — one validation pass over the graph,
strictly before any execution, then the Release Manager's loop starting with
a fresh draw counter. -/
def finalize (g : List Node) (reqs : List Request) (data : ℕ → List ℚ)
    (noise : ℕ → ℚ) (sess : Session) : Except DPError (ExecState × List ℚ) :=
  match validate g reqs with
  | Except.error e => Except.error e
  | Except.ok _ => execAll g data noise ⟨sess, 0⟩ reqs

/-- Modelled from the spec: `add_node` — appends a node and returns its index,
failing with `UnknownInputError` if an input index does not exist yet (equal
or past the current length, i.e. nonexistent or added later). -/
def add_node (g : List Node) (kind : NodeKind) (inputs : List ℕ)
    (bounds : Option Bounds) : Except DPError (List Node × ℕ) :=
  if inputs.all (fun j => decide (j < g.length)) then
    Except.ok (g ++ [⟨kind, inputs, bounds⟩], g.length)
  else Except.error DPError.unknownInput

/-- Graphs reachable from the empty graph through successful `add_node`
operations. -/
inductive Built : List Node → Prop
  | nil : Built []
  | snoc {g g' : List Node} {k : NodeKind} {ins : List ℕ} {b : Option Bounds}
      {i : ℕ} : Built g → add_node g k ins b = Except.ok (g', i) → Built g'

/-- Well-formedness of the arena: every edge of every node references an
index strictly less than the owning node's own index. -/
def WF (g : List Node) : Prop :=
  ∀ i, i < g.length → ∀ j ∈ (g.getD i defaultNode).inputs, j < i

/-- Ancestor relation of the graph: `Anc g c i` holds when node `i` reaches
node `c` through zero or more input edges. -/
inductive Anc (g : List Node) (c : ℕ) : ℕ → Prop
  | refl : Anc g c c
  | step {i j : ℕ} {nd : Node} : g[i]? = some nd → j ∈ nd.inputs →
      Anc g c j → Anc g c i

/-- A column node (non-aggregator) present in the graph but with no
resolvable Bounds Descriptor. -/
def BadColumn (g : List Node) (c : ℕ) : Prop :=
  ∃ nd, g[c]? = some nd ∧ nd.kind ≠ NodeKind.covariance ∧
    resolveBounds g (g.length + 1) c = none

instance exceptDecEq {ε α : Type} [DecidableEq ε] [DecidableEq α] :
    DecidableEq (Except ε α) := fun x y =>
  match x, y with
  | Except.ok a, Except.ok b =>
    if h : a = b then isTrue (by rw [h])
    else isFalse (by intro hc; cases hc; exact h rfl)
  | Except.error e, Except.error f =>
    if h : e = f then isTrue (by rw [h])
    else isFalse (by intro hc; cases hc; exact h rfl)
  | Except.ok _, Except.error _ => isFalse (by intro hc; cases hc)
  | Except.error _, Except.ok _ => isFalse (by intro hc; cases hc)

/-- Concrete bounds descriptor used by witness instantiations. -/
def bA : Bounds := ⟨0, 1, 10⟩

/-- Concrete bounds descriptor used by witness instantiations. -/
def bB : Bounds := ⟨0, 2, 10⟩

/-- Concrete two-column bounds list used by witness instantiations. -/
def bsAB : List Bounds := [bA, bB]

/-- Concrete graph used by witness instantiations: one bounded source column
and one covariance node over it. -/
def gDemo : List Node :=
  [⟨NodeKind.source, [], some bA⟩, ⟨NodeKind.covariance, [0, 0], none⟩]

/-- Concrete graph used by witness instantiations: one unbounded source
column and one covariance node over it. -/
def gBadDemo : List Node :=
  [⟨NodeKind.source, [], none⟩, ⟨NodeKind.covariance, [0, 0], none⟩]

/-- Concrete release request used by witness instantiations. -/
def reqDemo : Request := ⟨1, ⟨1, 0⟩⟩

/-- Concrete column data used by witness instantiations. -/
def dataDemo : ℕ → List ℚ := fun _ => []

/-- Concrete noise stream used by witness instantiations. -/
def noiseDemo : ℕ → ℚ := fun _ => 0

/-- Concrete five-column dataset used by witness instantiations, mirroring
the notebook's five-column release at epsilon 1. -/
def cols5 : List (List ℚ) := [[0], [0], [1], [0], [1]]

/-- Concrete five-column bounds list used by witness instantiations. -/
def bs5 : List Bounds := [bA, bA, bA, bA, bB]

theorem length_buildMatrix (rows cols : ℕ) (f : ℕ → ℕ → ℚ) :
    (buildMatrix rows cols f).length = rows := by
  simp [buildMatrix]

theorem mem_buildMatrix_length (rows cols : ℕ) (f : ℕ → ℕ → ℚ) :
    ∀ row ∈ buildMatrix rows cols f, row.length = cols := by
  intro row hrow
  simp only [buildMatrix, List.mem_map, List.mem_range] at hrow
  obtain ⟨i, -, rfl⟩ := hrow
  simp

theorem entry_buildMatrix {rows cols : ℕ} (f : ℕ → ℕ → ℚ) {i j : ℕ}
    (hi : i < rows) (hj : j < cols) :
    entry (buildMatrix rows cols f) i j = f i j := by
  have h1 : (buildMatrix rows cols f).getD i [] = (List.range cols).map fun j => f i j := by
    unfold buildMatrix
    rw [List.getD_eq_getElem?_getD, List.getElem?_map, List.getElem?_range hi]
    rfl
  unfold entry
  rw [h1, List.getD_eq_getElem?_getD, List.getElem?_map, List.getElem?_range hj]
  rfl

theorem zip_centered_sum_comm (mx my : ℚ) :
    ∀ xs ys : List ℚ,
      (List.zipWith (fun a b => (a - mx) * (b - my)) xs ys).sum =
        (List.zipWith (fun b a => (b - my) * (a - mx)) ys xs).sum := by
  intro xs
  induction xs with
  | nil => intro ys; cases ys <;> simp
  | cons x xs ih =>
    intro ys
    cases ys with
    | nil => simp
    | cons y ys => simp [ih ys]; ring

theorem covPair_comm (xs ys : List ℚ) (h : xs.length = ys.length) :
    covPair xs ys = covPair ys xs := by
  unfold covPair
  rw [h, zip_centered_sum_comm (mean xs) (mean ys) xs ys]

theorem wf_inputs_lt {g : List Node} (hwf : WF g) {i : ℕ} {nd : Node}
    (hg : g[i]? = some nd) : ∀ j ∈ nd.inputs, j < i := by
  obtain ⟨hlen, hval⟩ := List.getElem?_eq_some_iff.mp hg
  have hD : g.getD i defaultNode = nd := by
    rw [List.getD_eq_getElem?_getD, List.getElem?_eq_getElem hlen, hval]
    rfl
  have := hwf i hlen
  rw [hD] at this
  exact this

theorem getElem?_lt_length {g : List Node} {i : ℕ} {nd : Node}
    (hg : g[i]? = some nd) : i < g.length :=
  (List.getElem?_eq_some_iff.mp hg).choose

theorem offending_none_no_bad {g : List Node} (hwf : WF g) :
    ∀ fuel i, i < fuel → i < g.length → offending g fuel i = none →
      ∀ c, Anc g c i → ¬ BadColumn g c := by
  intro fuel
  induction fuel with
  | zero => intro i hi; omega
  | succ fuel ih =>
    intro i hif hil h c hanc hbad
    rw [offending] at h
    split at h
    · exact Option.some_ne_none i h
    · rename_i nd hg
      split at h
      · rename_i hcond
        have hall := List.findSome?_eq_none_iff.mp h
        cases hanc with
        | refl =>
          obtain ⟨nd', hnd', hk, hres⟩ := hbad
          rw [hg] at hnd'
          cases hnd'
          rcases hcond with hcov | hsome
          · exact hk hcov
          · rw [hres] at hsome; simp at hsome
        | step hgj hmem hanc' =>
          rename_i ij nd0
          rw [hg] at hgj
          cases hgj
          have hji : ij < i := wf_inputs_lt hwf hg ij hmem
          exact ih ij (by omega) (by omega) (hall ij hmem) c hanc' hbad
      · exact Option.some_ne_none i h

theorem offending_some_sound {g : List Node} (hwf : WF g) :
    ∀ fuel i, i < fuel → i < g.length → ∀ k, offending g fuel i = some k →
      Anc g k i ∧ BadColumn g k := by
  intro fuel
  induction fuel with
  | zero => intro i hi; omega
  | succ fuel ih =>
    intro i hif hil k h
    rw [offending] at h
    split at h
    · rename_i hg
      rw [List.getElem?_eq_getElem hil] at hg
      simp at hg
    · rename_i nd hg
      split at h
      · rename_i hcond
        obtain ⟨j, hmem, hj⟩ := List.exists_of_findSome?_eq_some h
        have hji : j < i := wf_inputs_lt hwf hg j hmem
        obtain ⟨hanc, hbad⟩ := ih j (by omega) (by omega) k hj
        exact ⟨Anc.step hg hmem hanc, hbad⟩
      · rename_i hcond
        cases h
        push_neg at hcond
        refine ⟨Anc.refl, nd, hg, hcond.1, ?_⟩
        simpa [Option.not_isSome_iff_eq_none] using hcond.2

theorem validate_missing_bounds {g : List Node} {reqs : List Request}
    (hwf : WF g) (hlen : ∀ r ∈ reqs, r.node < g.length)
    {r : Request} (hr : r ∈ reqs) {c : ℕ}
    (hanc : Anc g c r.node) (hbad : BadColumn g c) :
    ∃ k, BadColumn g k ∧ (∃ r' ∈ reqs, Anc g k r'.node) ∧
      validate g reqs = Except.error (DPError.missingBounds k) := by
  have hrl : r.node < g.length := hlen r hr
  have hsome : (offending g (g.length + 1) r.node).isSome = true := by
    cases ho : offending g (g.length + 1) r.node with
    | none =>
      exact absurd hbad
        (offending_none_no_bad hwf (g.length + 1) r.node (by omega) hrl ho c hanc)
    | some k => rfl
  cases hv : reqs.findSome? (fun rq => offending g (g.length + 1) rq.node) with
  | none =>
    have := List.findSome?_eq_none_iff.mp hv r hr
    rw [this] at hsome
    simp at hsome
  | some k =>
    obtain ⟨r', hr', ho'⟩ := List.exists_of_findSome?_eq_some hv
    obtain ⟨hanc', hbad'⟩ :=
      offending_some_sound hwf (g.length + 1) r'.node
        (by have := hlen r' hr'; omega) (hlen r' hr') k ho'
    refine ⟨k, hbad', ⟨r', hr', hanc'⟩, ?_⟩
    unfold validate
    rw [hv]

theorem finalize_error_of_validate {g : List Node} {reqs : List Request}
    {e : DPError} (h : validate g reqs = Except.error e)
    (data : ℕ → List ℚ) (noise : ℕ → ℚ) (sess : Session) :
    finalize g reqs data noise sess = Except.error e := by
  unfold finalize
  rw [h]

theorem debit_ok_spend {s : Session} {u : PrivacyUsage} {s' : Session}
    (h : debit s u = Except.ok s') :
    s'.spentEps = s.spentEps + u.eps ∧
    s'.spentDelta = s.spentDelta + u.delta ∧ s'.ceiling = s.ceiling := by
  unfold debit at h
  split at h
  · cases h; exact ⟨rfl, rfl, rfl⟩
  · split at h
    · cases h; exact ⟨rfl, rfl, rfl⟩
    · cases h

theorem debit_eq_of_ceiling_some {s : Session} {c : PrivacyUsage}
    (hc : s.ceiling = some c) (u : PrivacyUsage) :
    debit s u =
      if s.spentEps + u.eps ≤ c.eps ∧ s.spentDelta + u.delta ≤ c.delta then
        Except.ok ⟨s.spentEps + u.eps, s.spentDelta + u.delta, some c⟩
      else Except.error DPError.budgetExceeded := by
  unfold debit
  rw [hc]

theorem debit_fail {s : Session} {u : PrivacyUsage} {c : PrivacyUsage}
    (hc : s.ceiling = some c)
    (h : ¬ (s.spentEps + u.eps ≤ c.eps ∧ s.spentDelta + u.delta ≤ c.delta)) :
    debit s u = Except.error DPError.budgetExceeded := by
  rw [debit_eq_of_ceiling_some hc]
  exact if_neg h

theorem debit_ok_le {s : Session} {u : PrivacyUsage} {c : PrivacyUsage}
    {s' : Session} (hc : s.ceiling = some c) (h : debit s u = Except.ok s') :
    s'.spentEps ≤ c.eps ∧ s'.spentDelta ≤ c.delta := by
  rw [debit_eq_of_ceiling_some hc] at h
  by_cases hle : s.spentEps + u.eps ≤ c.eps ∧ s.spentDelta + u.delta ≤ c.delta
  · rw [if_pos hle] at h
    cases h
    exact hle
  · rw [if_neg hle] at h
    cases h

theorem execRequest_ok_state {g : List Node} {data : ℕ → List ℚ}
    {noise : ℕ → ℚ} {st : ExecState} {r : Request} {st2 : ExecState} {v : ℚ}
    (h : execRequest g data noise st r = Except.ok (st2, v)) :
    st2.sess.spentEps = st.sess.spentEps + r.usage.eps ∧
    st2.sess.spentDelta = st.sess.spentDelta + r.usage.delta ∧
    st2.sess.ceiling = st.sess.ceiling ∧
    debit st.sess r.usage = Except.ok st2.sess := by
  unfold execRequest at h
  split at h
  · cases h
  · split at h
    · split at h
      · split at h
        · cases h
        · rename_i sess2 hdeb
          cases h
          obtain ⟨h1, h2, h3⟩ := debit_ok_spend hdeb
          exact ⟨h1, h2, h3, hdeb⟩
      · cases h
    · cases h

theorem execRequest_debit_fail {g : List Node} {data : ℕ → List ℚ}
    {noise : ℕ → ℚ} {st : ExecState} {r : Request} {nd : Node} {i j : ℕ}
    {bi bj : Bounds} (hg : g[r.node]? = some nd) (hin : nd.inputs = [i, j])
    (hbi : resolveBounds g (g.length + 1) i = some bi)
    (hbj : resolveBounds g (g.length + 1) j = some bj) {e : DPError}
    (hdeb : debit st.sess r.usage = Except.error e) :
    execRequest g data noise st r = Except.error e := by
  unfold execRequest
  simp only [hg, hin, hbi, hbj, hdeb]

theorem execAll_ok_spend {g : List Node} {data : ℕ → List ℚ}
    {noise : ℕ → ℚ} :
    ∀ {reqs : List Request} {st st' : ExecState} {vs : List ℚ},
      execAll g data noise st reqs = Except.ok (st', vs) →
      st'.sess.spentEps =
          st.sess.spentEps + (reqs.map fun r => r.usage.eps).sum ∧
      st'.sess.spentDelta =
          st.sess.spentDelta + (reqs.map fun r => r.usage.delta).sum ∧
      st'.sess.ceiling = st.sess.ceiling := by
  intro reqs
  induction reqs with
  | nil =>
    intro st st' vs h
    unfold execAll at h
    cases h
    exact ⟨by simp, by simp, rfl⟩
  | cons r rs ih =>
    intro st st' vs h
    unfold execAll at h
    split at h
    · cases h
    · rename_i st2 v hreq
      split at h
      · cases h
      · rename_i st3 vs3 hrest
        cases h
        obtain ⟨h1, h2, h3, -⟩ := execRequest_ok_state hreq
        obtain ⟨h1', h2', h3'⟩ := ih hrest
        refine ⟨?_, ?_, h3'.trans h3⟩
        · rw [h1', h1, List.map_cons, List.sum_cons]; ring
        · rw [h2', h2, List.map_cons, List.sum_cons]; ring

theorem execAll_ok_ceiling {g : List Node} {data : ℕ → List ℚ}
    {noise : ℕ → ℚ} {c : PrivacyUsage} :
    ∀ {reqs : List Request} {st st' : ExecState} {vs : List ℚ},
      st.sess.ceiling = some c → st.sess.spentEps ≤ c.eps →
      st.sess.spentDelta ≤ c.delta →
      execAll g data noise st reqs = Except.ok (st', vs) →
      st'.sess.spentEps ≤ c.eps ∧ st'.sess.spentDelta ≤ c.delta := by
  intro reqs
  induction reqs with
  | nil =>
    intro st st' vs hc he hd h
    unfold execAll at h
    cases h
    exact ⟨he, hd⟩
  | cons r rs ih =>
    intro st st' vs hc he hd h
    unfold execAll at h
    split at h
    · cases h
    · rename_i st2 v hreq
      split at h
      · cases h
      · rename_i st3 vs3 hrest
        cases h
        obtain ⟨-, -, hceil, hdeb⟩ := execRequest_ok_state hreq
        obtain ⟨he2, hd2⟩ := debit_ok_le hc hdeb
        exact ih (hceil.trans hc) he2 hd2 hrest

theorem built_wf : ∀ {g : List Node}, Built g → WF g := by
  intro g hb
  induction hb with
  | nil =>
    intro i hi j hj
    simp at hi
  | snoc hb hadd ih =>
    rename_i g0 g1 k ins b idx
    unfold add_node at hadd
    split at hadd
    · rename_i hall
      cases hadd
      intro i hi j hj
      have hi' : i < g0.length + 1 := by simpa using hi
      by_cases hilt : i < g0.length
      · have hD : (g0 ++ [(⟨k, ins, b⟩ : Node)]).getD i defaultNode =
            g0.getD i defaultNode := by
          rw [List.getD_eq_getElem?_getD, List.getD_eq_getElem?_getD,
            List.getElem?_append_left hilt]
        rw [hD] at hj
        exact ih i hilt j hj
      · have hieq : i = g0.length := by omega
        subst hieq
        have hD : (g0 ++ [(⟨k, ins, b⟩ : Node)]).getD g0.length defaultNode =
            ⟨k, ins, b⟩ := by
          rw [List.getD_eq_getElem?_getD, List.getElem?_concat_length]
          rfl
        rw [hD] at hj
        exact of_decide_eq_true (List.all_eq_true.mp hall j hj)
    · cases hadd

/-- C1: For every statistic kind, valid bounds and sample size n > 0, the
Sensitivity Calculator returns per-entry sensitivity `(u1-l1)*(u2-l2)/n` for
scalar/pairwise covariance, `(u_i-l_i)^2/n` for a diagonal entry of a
self-covariance matrix, and `(u_i-l_i)*(u_j-l_j)/n` for every off-diagonal
self-covariance entry and every cross-covariance entry, computed per entry of
the assembled sensitivity matrix rather than once for the whole matrix. -/
theorem sensitivity_calculator_per_entry_formulas (b1 b2 : Bounds)
    (bs ls rs : List Bounds) (n i j p q : ℕ) (hn : 0 < n)
    (hb1 : b1.lower ≤ b1.upper) (hb2 : b2.lower ≤ b2.upper)
    (hbs : ∀ b ∈ bs, b.lower ≤ b.upper)
    (hls : ∀ b ∈ ls, b.lower ≤ b.upper) (hrs : ∀ b ∈ rs, b.lower ≤ b.upper)
    (hi : i < bs.length) (hj : j < bs.length) (hij : i ≠ j)
    (hp : p < ls.length) (hq : q < rs.length) :
    pairSensitivity b1 b2 n =
      (b1.upper - b1.lower) * (b2.upper - b2.lower) / n ∧
    entry (selfSensitivityMatrix bs n) i i =
      ((bs.getD i defaultBounds).upper - (bs.getD i defaultBounds).lower) ^ 2
        / n ∧
    entry (selfSensitivityMatrix bs n) i j =
      ((bs.getD i defaultBounds).upper - (bs.getD i defaultBounds).lower) *
        ((bs.getD j defaultBounds).upper - (bs.getD j defaultBounds).lower)
        / n ∧
    entry (crossSensitivityMatrix ls rs n) p q =
      ((ls.getD p defaultBounds).upper - (ls.getD p defaultBounds).lower) *
        ((rs.getD q defaultBounds).upper - (rs.getD q defaultBounds).lower)
        / n := by
  refine ⟨rfl, ?_, ?_, ?_⟩
  · rw [selfSensitivityMatrix, entry_buildMatrix _ hi hi]
    simp [selfEntrySensitivity, Bounds.range]
  · rw [selfSensitivityMatrix, entry_buildMatrix _ hi hj]
    simp [selfEntrySensitivity, hij, Bounds.range]
  · rw [crossSensitivityMatrix, entry_buildMatrix _ hp hq]
    simp [crossEntrySensitivity, Bounds.range]

theorem sensitivity_calculator_per_entry_formulas_witness :
    pairSensitivity bA bB 10 =
      (bA.upper - bA.lower) * (bB.upper - bB.lower) / (10 : ℕ) ∧
    entry (selfSensitivityMatrix bsAB 10) 0 0 =
      ((bsAB.getD 0 defaultBounds).upper - (bsAB.getD 0 defaultBounds).lower)
        ^ 2 / (10 : ℕ) ∧
    entry (selfSensitivityMatrix bsAB 10) 0 1 =
      ((bsAB.getD 0 defaultBounds).upper -
          (bsAB.getD 0 defaultBounds).lower) *
        ((bsAB.getD 1 defaultBounds).upper -
          (bsAB.getD 1 defaultBounds).lower) / (10 : ℕ) ∧
    entry (crossSensitivityMatrix [bA] [bB] 10) 0 0 =
      (([bA].getD 0 defaultBounds).upper - ([bA].getD 0 defaultBounds).lower) *
        (([bB].getD 0 defaultBounds).upper -
          ([bB].getD 0 defaultBounds).lower) / (10 : ℕ) :=
  sensitivity_calculator_per_entry_formulas bA bB bsAB [bA] [bB] 10 0 1 0 0
    (by decide) (by decide) (by decide) (by decide) (by decide) (by decide)
    (by decide) (by decide) (by decide) (by decide) (by decide)

/-- C6: For all valid bounds and n > 0, the sensitivity computed through the
matrix-covariance entry point (diagonal or off-diagonal entry) on a single
column pair equals the sensitivity computed through the scalar/pairwise entry
point on the same pair — the matrix formulas exactly reproduce the scalar
formula when the matrix degenerates to one pair. -/
theorem sensitivity_entry_point_consistency (b1 b2 : Bounds) (n : ℕ)
    (hn : 0 < n) (hb1 : b1.lower ≤ b1.upper) (hb2 : b2.lower ≤ b2.upper) :
    selfEntrySensitivity [b1, b2] n 0 1 = pairSensitivity b1 b2 n ∧
    selfEntrySensitivity [b1, b2] n 0 0 = pairSensitivity b1 b1 n ∧
    selfEntrySensitivity [b1, b2] n 1 1 = pairSensitivity b2 b2 n ∧
    crossEntrySensitivity [b1] [b2] n 0 0 = pairSensitivity b1 b2 n := by
  refine ⟨?_, ?_, ?_, ?_⟩ <;>
    simp [selfEntrySensitivity, crossEntrySensitivity, pairSensitivity,
      pow_two]

theorem sensitivity_entry_point_consistency_witness :
    selfEntrySensitivity [bA, bB] 10 0 1 = pairSensitivity bA bB 10 ∧
    selfEntrySensitivity [bA, bB] 10 0 0 = pairSensitivity bA bA 10 ∧
    selfEntrySensitivity [bA, bB] 10 1 1 = pairSensitivity bB bB 10 ∧
    crossEntrySensitivity [bA] [bB] 10 0 0 = pairSensitivity bA bB 10 :=
  sensitivity_entry_point_consistency bA bB 10 (by decide) (by decide)
    (by decide)

/-- C2: For every true value v, sensitivity s > 0, epsilon > 0 and delta,
`add_noise` returns v plus the unit draw scaled by exactly s/epsilon when
delta = 0, and v plus the unit draw scaled by the standard (epsilon,
delta)-DP Gaussian-mechanism formula when delta > 0; the added noise is
zero-mean (zero at the zero draw, linear in the draw), and the mechanism
reads only the precomputed statistic and scalar sensitivity — two datasets
with the same true statistic produce the same release, so per-record data is
never inspected. -/
theorem noise_mechanism_calibration (v s eps delta z : ℝ) (hs : 0 < s)
    (heps : 0 < eps) :
    (delta = 0 → add_noise v s eps delta z = v + s / eps * z) ∧
    (0 < delta → add_noise v s eps delta z =
      v + s * Real.sqrt (2 * Real.log (1.25 / delta)) / eps * z) ∧
    add_noise v s eps delta 0 = v ∧
    (∀ xs ys xs' ys' : List ℚ, ∀ b1 b2 : Bounds, ∀ n : ℕ, ∀ e zz : ℚ,
      covPair xs ys = covPair xs' ys' →
      releaseScalar xs ys b1 b2 n e zz =
        releaseScalar xs' ys' b1 b2 n e zz) := by
  refine ⟨?_, ?_, ?_, ?_⟩
  · intro h
    subst h
    simp [add_noise]
  · intro h
    have hne : delta ≠ 0 := ne_of_gt h
    simp [add_noise, gaussSigma, hne]
  · simp [add_noise]
  · intro xs ys xs' ys' b1 b2 n e zz h
    unfold releaseScalar
    rw [h]

theorem noise_mechanism_calibration_witness :
    add_noise 2 1 1 0 3 = 2 + 1 / 1 * 3 ∧
    add_noise 2 1 1 (1 / 2) 3 =
      2 + 1 * Real.sqrt (2 * Real.log (1.25 / (1 / 2))) / 1 * 3 ∧
    add_noise 2 1 1 0 0 = 2 ∧
    releaseScalar [1] [2] bA bB 10 1 0 = releaseScalar [1] [2] bA bB 10 1 0 :=
  ⟨(noise_mechanism_calibration 2 1 1 0 3 one_pos one_pos).1 rfl,
    (noise_mechanism_calibration 2 1 1 (1 / 2) 3 one_pos one_pos).2.1
      (by norm_num),
    (noise_mechanism_calibration 2 1 1 0 0 one_pos one_pos).2.2.1,
    (noise_mechanism_calibration 2 1 1 0 0 one_pos one_pos).2.2.2
      [1] [2] [1] [2] bA bB 10 1 0 rfl⟩

/-- C3: For every sequence of releases in one session that all succeed, the
Privacy Accountant's cumulative epsilon spend equals exactly the sum of the
requested epsilons, and delta composes additively the same way; the spend of
the final state is produced exclusively by the accountant's debits inside the
release pipeline. -/
theorem accountant_additive_composition (g : List Node) (data : ℕ → List ℚ)
    (noise : ℕ → ℚ) (ceiling : Option PrivacyUsage) (reqs : List Request)
    (st' : ExecState) (vs : List ℚ)
    (h : finalize g reqs data noise ⟨0, 0, ceiling⟩ = Except.ok (st', vs)) :
    st'.sess.spentEps = (reqs.map fun r => r.usage.eps).sum ∧
    st'.sess.spentDelta = (reqs.map fun r => r.usage.delta).sum := by
  unfold finalize at h
  split at h
  · cases h
  · obtain ⟨h1, h2, -⟩ := execAll_ok_spend h
    constructor
    · rw [h1]
      exact zero_add _
    · rw [h2]
      exact zero_add _

theorem accountant_additive_composition_witness :
    (⟨⟨1, 0, none⟩, 1⟩ : ExecState).sess.spentEps =
      (([reqDemo] : List Request).map fun r => r.usage.eps).sum ∧
    (⟨⟨1, 0, none⟩, 1⟩ : ExecState).sess.spentDelta =
      (([reqDemo] : List Request).map fun r => r.usage.delta).sum :=
  accountant_additive_composition gDemo dataDemo noiseDemo none [reqDemo]
    ⟨⟨1, 0, none⟩, 1⟩ [0] (by
      norm_num [finalize, validate, offending, execAll, execRequest, debit,
        resolveBounds, gDemo, reqDemo, dataDemo, noiseDemo, covPair, mean,
        pairSensitivity, bA, Bounds.range, List.findSome?])

/-- C4: A release request whose usage would push cumulative spend past a
declared ceiling fails with `BudgetExceededError`; the failing request
produces the same error for every noise stream, so the corresponding noisy
value is never computed or returned and no partial debit occurs; and after
any successfully executed sequence of requests, cumulative spend never
exceeds the ceiling. -/
theorem budget_ceiling_enforced :
    (∀ (s : Session) (u c : PrivacyUsage), s.ceiling = some c →
      ¬ (s.spentEps + u.eps ≤ c.eps ∧ s.spentDelta + u.delta ≤ c.delta) →
      debit s u = Except.error DPError.budgetExceeded) ∧
    (∀ (g : List Node) (data : ℕ → List ℚ) (st : ExecState) (r : Request)
        (nd : Node) (i j : ℕ) (bi bj : Bounds),
      g[r.node]? = some nd → nd.inputs = [i, j] →
      resolveBounds g (g.length + 1) i = some bi →
      resolveBounds g (g.length + 1) j = some bj →
      debit st.sess r.usage = Except.error DPError.budgetExceeded →
      ∀ noise : ℕ → ℚ,
        execRequest g data noise st r =
          Except.error DPError.budgetExceeded) ∧
    (∀ (g : List Node) (data : ℕ → List ℚ) (noise : ℕ → ℚ)
        (c : PrivacyUsage) (reqs : List Request) (st st' : ExecState)
        (vs : List ℚ),
      st.sess.ceiling = some c → st.sess.spentEps ≤ c.eps →
      st.sess.spentDelta ≤ c.delta →
      execAll g data noise st reqs = Except.ok (st', vs) →
      st'.sess.spentEps ≤ c.eps ∧ st'.sess.spentDelta ≤ c.delta) := by
  refine ⟨?_, ?_, ?_⟩
  · intro s u c hc h
    exact debit_fail hc h
  · intro g data st r nd i j bi bj hg hin hbi hbj hdeb noise
    exact execRequest_debit_fail hg hin hbi hbj hdeb
  · intro g data noise c reqs st st' vs hc he hd h
    exact execAll_ok_ceiling hc he hd h

theorem budget_ceiling_enforced_witness :
    debit ⟨1, 0, some ⟨1, 0⟩⟩ ⟨1, 0⟩ =
      Except.error DPError.budgetExceeded ∧
    execRequest gDemo dataDemo noiseDemo ⟨⟨1, 0, some ⟨1, 0⟩⟩, 0⟩ reqDemo =
      Except.error DPError.budgetExceeded ∧
    ((⟨⟨0, 0, some ⟨1, 0⟩⟩, 0⟩ : ExecState).sess.spentEps ≤
        (⟨1, 0⟩ : PrivacyUsage).eps ∧
      (⟨⟨0, 0, some ⟨1, 0⟩⟩, 0⟩ : ExecState).sess.spentDelta ≤
        (⟨1, 0⟩ : PrivacyUsage).delta) :=
  ⟨budget_ceiling_enforced.1 ⟨1, 0, some ⟨1, 0⟩⟩ ⟨1, 0⟩ ⟨1, 0⟩ rfl
      (by norm_num),
    budget_ceiling_enforced.2.1 gDemo dataDemo ⟨⟨1, 0, some ⟨1, 0⟩⟩, 0⟩
      reqDemo ⟨NodeKind.covariance, [0, 0], none⟩ 0 0 bA bA rfl rfl rfl rfl
      (by norm_num [debit, reqDemo]) noiseDemo,
    budget_ceiling_enforced.2.2 gDemo dataDemo noiseDemo ⟨1, 0⟩ []
      ⟨⟨0, 0, some ⟨1, 0⟩⟩, 0⟩ ⟨⟨0, 0, some ⟨1, 0⟩⟩, 0⟩ [] rfl (by norm_num)
      (by norm_num) rfl⟩

/-- C5: For every well-formed graph in which some release node transitively
depends on a column without a resolvable Bounds Descriptor, `finalize`
deterministically fails with `MissingBoundsError` naming an offending
unresolvable ancestor node of a requested release, for every dataset, every
noise stream and every session — so a missing-bounds failure never draws
randomness and never consumes any privacy budget. -/
theorem missing_bounds_fails_before_noise (g : List Node)
    (reqs : List Request) (hwf : WF g)
    (hlen : ∀ r ∈ reqs, r.node < g.length) (r : Request) (hr : r ∈ reqs)
    (c : ℕ) (hanc : Anc g c r.node) (hbad : BadColumn g c) :
    ∃ k, BadColumn g k ∧ (∃ r' ∈ reqs, Anc g k r'.node) ∧
      ∀ (data : ℕ → List ℚ) (noise : ℕ → ℚ) (sess : Session),
        finalize g reqs data noise sess =
          Except.error (DPError.missingBounds k) := by
  obtain ⟨k, hk, hrk, hv⟩ := validate_missing_bounds hwf hlen hr hanc hbad
  exact ⟨k, hk, hrk, fun data noise sess =>
    finalize_error_of_validate hv data noise sess⟩

theorem missing_bounds_fails_before_noise_witness :
    ∃ k, BadColumn gBadDemo k ∧
      (∃ r' ∈ [reqDemo], Anc gBadDemo k r'.node) ∧
      ∀ (data : ℕ → List ℚ) (noise : ℕ → ℚ) (sess : Session),
        finalize gBadDemo [reqDemo] data noise sess =
          Except.error (DPError.missingBounds k) :=
  missing_bounds_fails_before_noise gBadDemo [reqDemo]
    (by unfold WF; decide)
    (by decide) reqDemo (by decide) 0
    (@Anc.step gBadDemo 0 1 0 ⟨NodeKind.covariance, [0, 0], none⟩ rfl
      (by decide) Anc.refl)
    ⟨⟨NodeKind.source, [], none⟩, rfl, by decide, rfl⟩

theorem getD_eq_getElem_of_lt {α : Type} (l : List α) (d : α) {i : ℕ}
    (h : i < l.length) : l.getD i d = l[i] := by
  rw [List.getD_eq_getElem?_getD, List.getElem?_eq_getElem h]
  rfl

theorem draw_index_ne {i j k : ℕ} (hij : i ≠ j) (hi : i < k) (hj : j < k) :
    j * k + i ≠ i * k + j := by
  intro h
  have h' : (j : ℤ) * k + i = (i : ℤ) * k + j := by exact_mod_cast h
  have hz : ((j : ℤ) - i) * ((k : ℤ) - 1) = 0 := by linear_combination h'
  rcases mul_eq_zero.mp hz with h1 | h2
  · apply hij
    have hji : (i : ℤ) = j := by linarith
    exact_mod_cast hji
  · have hk : (k : ℤ) = 1 := by linarith
    have hk1 : k = 1 := by exact_mod_cast hk
    subst hk1
    omega

theorem zip_centered_expand (al be : ℚ) :
    ∀ xs ys : List ℚ, xs.length = ys.length →
      (List.zipWith (fun a b => (a - al) * (b - be)) xs ys).sum =
        (List.zipWith (fun a b => a * b) xs ys).sum - be * xs.sum -
          al * ys.sum + (xs.length : ℚ) * (al * be) := by
  intro xs
  induction xs with
  | nil =>
    intro ys h
    cases ys with
    | nil => simp
    | cons y ys => simp at h
  | cons x xs ih =>
    intro ys h
    cases ys with
    | nil => simp at h
    | cons y ys =>
      have h' : xs.length = ys.length := by simpa using h
      simp only [List.zipWith_cons_cons, List.sum_cons, List.length_cons]
      rw [ih ys h']
      push_cast
      ring

theorem dot_set :
    ∀ (xs ys : List ℚ) (k : ℕ) (av bv : ℚ), k < xs.length →
      xs.length = ys.length →
      (List.zipWith (fun a b => a * b) (xs.set k av) (ys.set k bv)).sum =
        (List.zipWith (fun a b => a * b) xs ys).sum -
          xs.getD k 0 * ys.getD k 0 + av * bv := by
  intro xs
  induction xs with
  | nil =>
    intro ys k av bv hk
    simp at hk
  | cons x xs ih =>
    intro ys k av bv hk h
    cases ys with
    | nil => simp at h
    | cons y ys =>
      cases k with
      | zero =>
        simp only [List.set_cons_zero, List.zipWith_cons_cons, List.sum_cons,
          List.getD_cons_zero]
        ring
      | succ k =>
        have hk' : k < xs.length := by simpa using hk
        have h' : xs.length = ys.length := by simpa using h
        simp only [List.set_cons_succ, List.zipWith_cons_cons, List.sum_cons,
          List.getD_cons_succ]
        rw [ih ys k av bv hk' h']
        ring

theorem sum_set_eq :
    ∀ (xs : List ℚ) (k : ℕ) (av : ℚ), k < xs.length →
      (xs.set k av).sum = xs.sum - xs.getD k 0 + av := by
  intro xs
  induction xs with
  | nil =>
    intro k av hk
    simp at hk
  | cons x xs ih =>
    intro k av hk
    cases k with
    | zero =>
      simp only [List.set_cons_zero, List.sum_cons, List.getD_cons_zero]
      ring
    | succ k =>
      have hk' : k < xs.length := by simpa using hk
      simp only [List.set_cons_succ, List.sum_cons, List.getD_cons_succ]
      rw [ih k av hk']
      ring

theorem sum_within_bounds (l u : ℚ) :
    ∀ xs : List ℚ, (∀ x ∈ xs, l ≤ x ∧ x ≤ u) →
      (xs.length : ℚ) * l ≤ xs.sum ∧ xs.sum ≤ (xs.length : ℚ) * u := by
  intro xs
  induction xs with
  | nil => intro hx; simp
  | cons x xs ih =>
    intro hx
    have hx0 := hx x (List.mem_cons_self x xs)
    have hrest := ih fun y hy => hx y (List.mem_cons_of_mem x hy)
    simp only [List.sum_cons, List.length_cons]
    push_cast
    constructor
    · nlinarith [hrest.1, hx0.1]
    · nlinarith [hrest.2, hx0.2]

theorem sum_sub_elem_bounds (l u : ℚ) :
    ∀ (xs : List ℚ) (k : ℕ), k < xs.length →
      (∀ x ∈ xs, l ≤ x ∧ x ≤ u) →
      ((xs.length : ℚ) - 1) * l ≤ xs.sum - xs.getD k 0 ∧
        xs.sum - xs.getD k 0 ≤ ((xs.length : ℚ) - 1) * u := by
  intro xs
  induction xs with
  | nil =>
    intro k hk
    simp at hk
  | cons x xs ih =>
    intro k hk hx
    have hx0 := hx x (List.mem_cons_self x xs)
    have hrest : ∀ y ∈ xs, l ≤ y ∧ y ≤ u :=
      fun y hy => hx y (List.mem_cons_of_mem x hy)
    cases k with
    | zero =>
      have := sum_within_bounds l u xs hrest
      simp only [List.sum_cons, List.getD_cons_zero, List.length_cons]
      push_cast
      constructor
      · linarith [this.1]
      · linarith [this.2]
    | succ k =>
      have hk' : k < xs.length := by simpa using hk
      have := ih k hk' hrest
      simp only [List.sum_cons, List.getD_cons_succ, List.length_cons]
      push_cast
      constructor
      · linarith [this.1, hx0.1]
      · linarith [this.2, hx0.2]

theorem prod_diff_le_box {l1 u1 l2 u2 a av p b bv q : ℚ}
    (ha1 : l1 ≤ a) (ha2 : a ≤ u1) (hav1 : l1 ≤ av) (hav2 : av ≤ u1)
    (hp1 : l1 ≤ p) (hp2 : p ≤ u1)
    (hb1 : l2 ≤ b) (hb2 : b ≤ u2) (hbv1 : l2 ≤ bv) (hbv2 : bv ≤ u2)
    (hq1 : l2 ≤ q) (hq2 : q ≤ u2) :
    (av - p) * (bv - q) - (a - p) * (b - q) ≤ (u1 - l1) * (u2 - l2) := by
  rcases le_total q bv with h1 | h1 <;> rcases le_total q b with h2 | h2
  · nlinarith [mul_nonneg (by linarith : (0:ℚ) ≤ u1 - av) (by linarith : (0:ℚ) ≤ bv - q),
      mul_nonneg (by linarith : (0:ℚ) ≤ u1 - p) (by linarith : (0:ℚ) ≤ u2 - bv),
      mul_nonneg (by linarith : (0:ℚ) ≤ a - l1) (by linarith : (0:ℚ) ≤ b - q),
      mul_nonneg (by linarith : (0:ℚ) ≤ p - l1) (by linarith : (0:ℚ) ≤ u2 - b),
      mul_nonneg (by linarith : (0:ℚ) ≤ u1 - l1) (by linarith : (0:ℚ) ≤ q - l2)]
  · nlinarith [mul_nonneg (by linarith : (0:ℚ) ≤ u1 - av) (by linarith : (0:ℚ) ≤ bv - q),
      mul_nonneg (by linarith : (0:ℚ) ≤ u1 - p) (by linarith : (0:ℚ) ≤ u2 - bv),
      mul_nonneg (by linarith : (0:ℚ) ≤ u1 - a) (by linarith : (0:ℚ) ≤ q - b),
      mul_nonneg (by linarith : (0:ℚ) ≤ u1 - p) (by linarith : (0:ℚ) ≤ b - l2),
      mul_nonneg (by linarith : (0:ℚ) ≤ p - l1) (by linarith : (0:ℚ) ≤ u2 - l2)]
  · nlinarith [mul_nonneg (by linarith : (0:ℚ) ≤ av - l1) (by linarith : (0:ℚ) ≤ q - bv),
      mul_nonneg (by linarith : (0:ℚ) ≤ p - l1) (by linarith : (0:ℚ) ≤ bv - l2),
      mul_nonneg (by linarith : (0:ℚ) ≤ a - l1) (by linarith : (0:ℚ) ≤ b - q),
      mul_nonneg (by linarith : (0:ℚ) ≤ p - l1) (by linarith : (0:ℚ) ≤ u2 - b),
      mul_nonneg (by linarith : (0:ℚ) ≤ u1 - p) (by linarith : (0:ℚ) ≤ u2 - l2)]
  · nlinarith [mul_nonneg (by linarith : (0:ℚ) ≤ av - l1) (by linarith : (0:ℚ) ≤ q - bv),
      mul_nonneg (by linarith : (0:ℚ) ≤ p - l1) (by linarith : (0:ℚ) ≤ bv - l2),
      mul_nonneg (by linarith : (0:ℚ) ≤ u1 - a) (by linarith : (0:ℚ) ≤ q - b),
      mul_nonneg (by linarith : (0:ℚ) ≤ u1 - p) (by linarith : (0:ℚ) ≤ b - l2),
      mul_nonneg (by linarith : (0:ℚ) ≤ u1 - l1) (by linarith : (0:ℚ) ≤ u2 - q)]


theorem covPair_eq_dot (xs ys : List ℚ) (h : xs.length = ys.length)
    (hn : xs.length ≠ 0) :
    covPair xs ys =
      ((List.zipWith (fun a b => a * b) xs ys).sum -
        xs.sum * ys.sum / (xs.length : ℚ)) / ((xs.length : ℚ) - 1) := by
  have hq : ((xs.length : ℚ)) ≠ 0 := Nat.cast_ne_zero.mpr hn
  have hnum : (List.zipWith (fun a b => (a - mean xs) * (b - mean ys)) xs ys).sum =
      (List.zipWith (fun a b => a * b) xs ys).sum -
        xs.sum * ys.sum / (xs.length : ℚ) := by
    rw [zip_centered_expand (mean xs) (mean ys) xs ys h]
    unfold mean
    rw [← h]
    field_simp
    ring
  unfold covPair
  rw [hnum]

theorem covPair_bounded_difference (b1 b2 : Bounds) (xs ys : List ℚ)
    (k : ℕ) (av bv : ℚ) (hlen : xs.length = ys.length) (hk : k < xs.length)
    (hxs : ∀ x ∈ xs, b1.lower ≤ x ∧ x ≤ b1.upper)
    (hys : ∀ y ∈ ys, b2.lower ≤ y ∧ y ≤ b2.upper)
    (hav1 : b1.lower ≤ av) (hav2 : av ≤ b1.upper)
    (hbv1 : b2.lower ≤ bv) (hbv2 : bv ≤ b2.upper) :
    |covPair (xs.set k av) (ys.set k bv) - covPair xs ys| ≤
      pairSensitivity b1 b2 xs.length := by
  have hky : k < ys.length := hlen ▸ hk
  have hmemx : xs.getD k 0 ∈ xs := by
    rw [getD_eq_getElem_of_lt _ _ hk]
    exact List.getElem_mem hk
  have hmemy : ys.getD k 0 ∈ ys := by
    rw [getD_eq_getElem_of_lt _ _ hky]
    exact List.getElem_mem hky
  have ha := hxs _ hmemx
  have hb := hys _ hmemy
  have hr1 : 0 ≤ b1.range := by
    unfold Bounds.range
    linarith [ha.1, ha.2]
  have hr2 : 0 ≤ b2.range := by
    unfold Bounds.range
    linarith [hb.1, hb.2]
  rcases Nat.lt_or_ge xs.length 2 with hn1 | hn2
  · have hxl : xs.length = 1 := by omega
    have c1 : covPair (xs.set k av) (ys.set k bv) = 0 := by
      unfold covPair
      rw [List.length_set, hxl]
      norm_num
    have c2 : covPair xs ys = 0 := by
      unfold covPair
      rw [hxl]
      norm_num
    rw [c1, c2, hxl]
    unfold pairSensitivity
    push_cast
    simp only [sub_zero, abs_zero, div_one]
    exact mul_nonneg hr1 hr2
  · have hq0 : ((xs.length : ℚ)) ≠ 0 := by
      have : (2 : ℚ) ≤ (xs.length : ℚ) := by exact_mod_cast hn2
      intro hcon
      rw [hcon] at this
      norm_num at this
    have hqpos : (0 : ℚ) < (xs.length : ℚ) := by
      have : (2 : ℚ) ≤ (xs.length : ℚ) := by exact_mod_cast hn2
      linarith
    have hq1pos : (0 : ℚ) < (xs.length : ℚ) - 1 := by
      have : (2 : ℚ) ≤ (xs.length : ℚ) := by exact_mod_cast hn2
      linarith
    have hq1 : ((xs.length : ℚ)) - 1 ≠ 0 := ne_of_gt hq1pos
    have hid : covPair (xs.set k av) (ys.set k bv) - covPair xs ys =
        (((xs.length : ℚ) - 1) * (av * bv - xs.getD k 0 * ys.getD k 0) -
          (xs.sum - xs.getD k 0) * (bv - ys.getD k 0) -
          (ys.sum - ys.getD k 0) * (av - xs.getD k 0)) /
        ((xs.length : ℚ) * ((xs.length : ℚ) - 1)) := by
      rw [covPair_eq_dot (xs.set k av) (ys.set k bv)
          (by rw [List.length_set, List.length_set, hlen])
          (by rw [List.length_set]; omega),
        covPair_eq_dot xs ys hlen (by omega),
        dot_set xs ys k av bv hk hlen, sum_set_eq xs k av hk,
        sum_set_eq ys k bv hky, List.length_set]
      field_simp
      ring
    have hP := sum_sub_elem_bounds b1.lower b1.upper xs k hk hxs
    have hQ := sum_sub_elem_bounds b2.lower b2.upper ys k hky hys
    rw [← hlen] at hQ
    have hp1 : b1.lower ≤ (xs.sum - xs.getD k 0) / ((xs.length : ℚ) - 1) := by
      rw [le_div_iff₀ hq1pos]
      linarith [hP.1]
    have hp2 : (xs.sum - xs.getD k 0) / ((xs.length : ℚ) - 1) ≤ b1.upper := by
      rw [div_le_iff₀ hq1pos]
      linarith [hP.2]
    have hq1' : b2.lower ≤ (ys.sum - ys.getD k 0) / ((xs.length : ℚ) - 1) := by
      rw [le_div_iff₀ hq1pos]
      linarith [hQ.1]
    have hq2' : (ys.sum - ys.getD k 0) / ((xs.length : ℚ) - 1) ≤ b2.upper := by
      rw [div_le_iff₀ hq1pos]
      linarith [hQ.2]
    have hEP : xs.sum - xs.getD k 0 =
        ((xs.length : ℚ) - 1) * ((xs.sum - xs.getD k 0) / ((xs.length : ℚ) - 1)) := by
      field_simp
    have hEQ : ys.sum - ys.getD k 0 =
        ((xs.length : ℚ) - 1) * ((ys.sum - ys.getD k 0) / ((xs.length : ℚ) - 1)) := by
      field_simp
    set p := (xs.sum - xs.getD k 0) / ((xs.length : ℚ) - 1) with hpdef
    set q := (ys.sum - ys.getD k 0) / ((xs.length : ℚ) - 1) with hqdef
    have hbox := prod_diff_le_box ha.1 ha.2 hav1 hav2 hp1 hp2 hb.1 hb.2
      hbv1 hbv2 hq1' hq2'
    have hbox2 := prod_diff_le_box hav1 hav2 ha.1 ha.2 hp1 hp2 hbv1 hbv2
      hb.1 hb.2 hq1' hq2'
    have hgabs : |(av - p) * (bv - q) - (xs.getD k 0 - p) * (ys.getD k 0 - q)| ≤
        b1.range * b2.range := by
      unfold Bounds.range
      rw [abs_le]
      constructor
      · linarith [hbox2]
      · exact hbox
    have hEg : ((xs.length : ℚ) - 1) * (av * bv - xs.getD k 0 * ys.getD k 0) -
        (xs.sum - xs.getD k 0) * (bv - ys.getD k 0) -
        (ys.sum - ys.getD k 0) * (av - xs.getD k 0) =
        ((xs.length : ℚ) - 1) *
          ((av - p) * (bv - q) - (xs.getD k 0 - p) * (ys.getD k 0 - q)) := by
      rw [hEP, hEQ]
      ring
    have hdenpos : (0 : ℚ) < (xs.length : ℚ) * ((xs.length : ℚ) - 1) :=
      mul_pos hqpos hq1pos
    rw [hid, hEg, abs_div, abs_of_pos hdenpos, abs_mul, abs_of_pos hq1pos]
    have hstep : ((xs.length : ℚ) - 1) *
        |(av - p) * (bv - q) - (xs.getD k 0 - p) * (ys.getD k 0 - q)| /
        ((xs.length : ℚ) * ((xs.length : ℚ) - 1)) =
        |(av - p) * (bv - q) - (xs.getD k 0 - p) * (ys.getD k 0 - q)| /
          (xs.length : ℚ) := by
      field_simp
      ring
    rw [hstep]
    unfold pairSensitivity
    gcongr

/-- C7: The Covariance Computer evaluates the pairwise statistic as the
centered cross-product sum divided by the single fixed normalization
constant `n - 1` (the `np.cov` convention), applied uniformly across the
scalar, matrix and cross-matrix entry points; the Sensitivity Calculator is
consistent with that same choice — altering one record within its declared
bounds changes the `n - 1`-normalized statistic by at most the calculator's
`r1 * r2 / n` (the bounded-difference sensitivity of spec 4.3) — and the
demonstration's released scalar 94604.90164818 agrees with the modelled true
value 94604.9 well within the noise tolerance of Scenario A. -/
theorem covariance_normalization_uniform (xs ys : List ℚ)
    (cols ls rs : List (List ℚ)) (b1 b2 : Bounds) (i j p q : ℕ)
    (hi : i < cols.length) (hj : j < cols.length) (hp : p < ls.length)
    (hq : q < rs.length) :
    covPair xs ys =
      (List.zipWith (fun a b => (a - mean xs) * (b - mean ys)) xs ys).sum /
        ((xs.length : ℚ) - 1) ∧
    entry (covMatrixOf cols) i j =
      covPair (cols.getD i []) (cols.getD j []) ∧
    entry (crossMatrixOf ls rs) p q =
      covPair (ls.getD p []) (rs.getD q []) ∧
    (∀ (zs ws : List ℚ) (k : ℕ) (av bv : ℚ),
      zs.length = ws.length → k < zs.length →
      (∀ x ∈ zs, b1.lower ≤ x ∧ x ≤ b1.upper) →
      (∀ y ∈ ws, b2.lower ≤ y ∧ y ≤ b2.upper) →
      b1.lower ≤ av → av ≤ b1.upper → b2.lower ≤ bv → bv ≤ b2.upper →
      |covPair (zs.set k av) (ws.set k bv) - covPair zs ws| ≤
        pairSensitivity b1 b2 zs.length) ∧
    |demoReleasedScalar - demoTrueCov| ≤ 100 := by
  refine ⟨rfl, ?_, ?_, ?_, ?_⟩
  · rw [covMatrixOf]
    exact entry_buildMatrix _ hi hj
  · rw [crossMatrixOf]
    exact entry_buildMatrix _ hp hq
  · intro zs ws k av bv h1 h2 h3 h4 h5 h6 h7 h8
    exact covPair_bounded_difference b1 b2 zs ws k av bv h1 h2 h3 h4 h5 h6
      h7 h8
  · norm_num [demoReleasedScalar, demoTrueCov, abs_le]

theorem covariance_normalization_uniform_witness :
    covPair [1] [2] =
      (List.zipWith (fun a b => (a - mean [1]) * (b - mean [2])) [1] [2]).sum /
        ((([1] : List ℚ).length : ℚ) - 1) ∧
    entry (covMatrixOf [[1], [2]]) 0 1 =
      covPair (([[1], [2]] : List (List ℚ)).getD 0 [])
        (([[1], [2]] : List (List ℚ)).getD 1 []) ∧
    entry (crossMatrixOf [[1]] [[2]]) 0 0 =
      covPair (([[1]] : List (List ℚ)).getD 0 [])
        (([[2]] : List (List ℚ)).getD 0 []) ∧
    |covPair (([0, 1] : List ℚ).set 0 1) (([0, 2] : List ℚ).set 0 2) -
        covPair [0, 1] [0, 2]| ≤
      pairSensitivity bA bB ([0, 1] : List ℚ).length ∧
    |demoReleasedScalar - demoTrueCov| ≤ 100 :=
  ⟨(covariance_normalization_uniform [1] [2] [[1], [2]] [[1]] [[2]] bA bB
      0 1 0 0 (by decide) (by decide) (by decide) (by decide)).1,
    (covariance_normalization_uniform [1] [2] [[1], [2]] [[1]] [[2]] bA bB
      0 1 0 0 (by decide) (by decide) (by decide) (by decide)).2.1,
    (covariance_normalization_uniform [1] [2] [[1], [2]] [[1]] [[2]] bA bB
      0 1 0 0 (by decide) (by decide) (by decide) (by decide)).2.2.1,
    (covariance_normalization_uniform [1] [2] [[1], [2]] [[1]] [[2]] bA bB
      0 1 0 0 (by decide) (by decide) (by decide) (by decide)).2.2.2.1
      [0, 1] [0, 2] 0 1 2 (by decide) (by decide) (by decide) (by decide)
      (by decide) (by decide) (by decide) (by decide),
    (covariance_normalization_uniform [1] [2] [[1], [2]] [[1]] [[2]] bA bB
      0 1 0 0 (by decide) (by decide) (by decide) (by decide)).2.2.2.2⟩

/-- C8: For every self-covariance matrix release, the raw statistic is
mathematically symmetric before noise, but each entry of the released matrix
receives an independently drawn noise value, so for some randomness the
released entries (i,j) and (j,i) differ — the released matrix is not
guaranteed symmetric after noise. -/
theorem covariance_symmetric_raw_asymmetric_release (cols : List (List ℚ))
    (bs : List Bounds) (n : ℕ) (eps : ℚ) (i j : ℕ) (hij : i ≠ j)
    (hi : i < cols.length) (hj : j < cols.length)
    (hcols : ∀ c1 ∈ cols, ∀ c2 ∈ cols, c1.length = c2.length)
    (hscale : selfEntrySensitivity bs n i j / eps ≠ 0) :
    entry (covMatrixOf cols) i j = entry (covMatrixOf cols) j i ∧
    ∃ noise : ℕ → ℚ,
      entry (releaseMatrix cols bs n eps noise) i j ≠
        entry (releaseMatrix cols bs n eps noise) j i := by
  have hmi : cols.getD i [] ∈ cols := by
    rw [getD_eq_getElem_of_lt _ _ hi]
    exact List.getElem_mem hi
  have hmj : cols.getD j [] ∈ cols := by
    rw [getD_eq_getElem_of_lt _ _ hj]
    exact List.getElem_mem hj
  have hsym : covPair (cols.getD i []) (cols.getD j []) =
      covPair (cols.getD j []) (cols.getD i []) :=
    covPair_comm _ _ (hcols _ hmi _ hmj)
  constructor
  · rw [covMatrixOf, entry_buildMatrix _ hi hj, entry_buildMatrix _ hj hi]
    exact hsym
  · refine ⟨fun t => if t = i * cols.length + j then 1 else 0, ?_⟩
    rw [releaseMatrix, entry_buildMatrix _ hi hj, entry_buildMatrix _ hj hi]
    rw [if_pos rfl, if_neg (draw_index_ne hij hi hj)]
    intro heq
    apply hscale
    rw [mul_one, mul_zero, add_zero, hsym] at heq
    linarith

theorem covariance_symmetric_raw_asymmetric_release_witness :
    entry (covMatrixOf [[1, 2], [3, 5]]) 0 1 =
      entry (covMatrixOf [[1, 2], [3, 5]]) 1 0 ∧
    ∃ noise : ℕ → ℚ,
      entry (releaseMatrix [[1, 2], [3, 5]] bsAB 10 1 noise) 0 1 ≠
        entry (releaseMatrix [[1, 2], [3, 5]] bsAB 10 1 noise) 1 0 :=
  covariance_symmetric_raw_asymmetric_release [[1, 2], [3, 5]] bsAB 10 1 0 1
    (by decide) (by decide) (by decide)
    (by intro c1 h1 c2 h2; fin_cases h1 <;> fin_cases h2 <;> rfl)
    (by norm_num [selfEntrySensitivity, bsAB, bA, bB, Bounds.range])

/-- C9: Every successful release has the declared shape — 1 × 1 for scalar
covariance, k × k for self-covariance of a k-column input, k × m for
cross-covariance of a k-column and an m-column input — and each released
entry is exactly the raw statistic plus its own calibrated noise term, with
no PSD repair applied. -/
theorem release_output_shapes (xs ys : List ℚ) (b1 b2 : Bounds)
    (cols ls rs : List (List ℚ)) (bs lb rb : List Bounds) (n : ℕ)
    (eps : ℚ) (noise : ℕ → ℚ) (z : ℚ) (i j p q : ℕ)
    (hi : i < cols.length) (hj : j < cols.length) (hp : p < ls.length)
    (hq : q < rs.length) :
    (releaseScalar xs ys b1 b2 n eps z).length = 1 ∧
    (∀ row ∈ releaseScalar xs ys b1 b2 n eps z, row.length = 1) ∧
    (releaseMatrix cols bs n eps noise).length = cols.length ∧
    (∀ row ∈ releaseMatrix cols bs n eps noise,
      row.length = cols.length) ∧
    (releaseCross ls rs lb rb n eps noise).length = ls.length ∧
    (∀ row ∈ releaseCross ls rs lb rb n eps noise,
      row.length = rs.length) ∧
    entry (releaseMatrix cols bs n eps noise) i j =
      covPair (cols.getD i []) (cols.getD j []) +
        selfEntrySensitivity bs n i j / eps * noise (i * cols.length + j) ∧
    entry (releaseCross ls rs lb rb n eps noise) p q =
      covPair (ls.getD p []) (rs.getD q []) +
        crossEntrySensitivity lb rb n p q / eps *
          noise (p * rs.length + q) := by
  refine ⟨rfl, ?_, length_buildMatrix _ _ _, mem_buildMatrix_length _ _ _,
    length_buildMatrix _ _ _, mem_buildMatrix_length _ _ _, ?_, ?_⟩
  · intro row hrow
    simp only [releaseScalar, List.mem_singleton] at hrow
    subst hrow
    rfl
  · rw [releaseMatrix]
    exact entry_buildMatrix _ hi hj
  · rw [releaseCross]
    exact entry_buildMatrix _ hp hq

theorem release_output_shapes_witness :
    (releaseScalar [1] [2] bA bB 10 1 0).length = 1 ∧
    (∀ row ∈ releaseScalar [1] [2] bA bB 10 1 0, row.length = 1) ∧
    (releaseMatrix cols5 bs5 10 1 noiseDemo).length = cols5.length ∧
    (∀ row ∈ releaseMatrix cols5 bs5 10 1 noiseDemo,
      row.length = cols5.length) ∧
    (releaseCross cols5 cols5 bs5 bs5 10 1 noiseDemo).length =
      cols5.length ∧
    (∀ row ∈ releaseCross cols5 cols5 bs5 bs5 10 1 noiseDemo,
      row.length = cols5.length) ∧
    entry (releaseMatrix cols5 bs5 10 1 noiseDemo) 3 4 =
      covPair (cols5.getD 3 []) (cols5.getD 4 []) +
        selfEntrySensitivity bs5 10 3 4 / 1 *
          noiseDemo (3 * cols5.length + 4) ∧
    entry (releaseCross cols5 cols5 bs5 bs5 10 1 noiseDemo) 0 4 =
      covPair (cols5.getD 0 []) (cols5.getD 4 []) +
        crossEntrySensitivity bs5 bs5 10 0 4 / 1 *
          noiseDemo (0 * cols5.length + 4) :=
  release_output_shapes [1] [2] bA bB cols5 cols5 cols5 bs5 bs5 bs5 10 1
    noiseDemo 0 3 4 0 4 (by decide) (by decide) (by decide) (by decide)

theorem built_gDemo : Built gDemo :=
  Built.snoc
    (Built.snoc Built.nil
      (show add_node [] NodeKind.source [] (some bA) =
          Except.ok ([⟨NodeKind.source, [], some bA⟩], 0) from rfl))
    (show add_node [⟨NodeKind.source, [], some bA⟩] NodeKind.covariance
        [0, 0] none = Except.ok (gDemo, 1) from rfl)

/-- C10: Every graph reachable through `add_node` operations is acyclic by
construction — every edge of every node references an index strictly less
than the owning node's own index — and `add_node` fails with
`UnknownInputError` whenever an input index does not exist yet (nonexistent
or referring to a node added later). -/
theorem graph_acyclic_unknown_input :
    (∀ g : List Node, Built g → WF g) ∧
    (∀ (g : List Node) (k : NodeKind) (ins : List ℕ) (b : Option Bounds),
      (∃ j ∈ ins, g.length ≤ j) →
      add_node g k ins b = Except.error DPError.unknownInput) := by
  constructor
  · intro g hb
    exact built_wf hb
  · intro g k ins b hex
    obtain ⟨j, hj, hlen⟩ := hex
    have hnot : ¬ (ins.all (fun m => decide (m < g.length)) = true) := by
      intro hall
      have := of_decide_eq_true (List.all_eq_true.mp hall j hj)
      omega
    unfold add_node
    rw [if_neg hnot]

theorem graph_acyclic_unknown_input_witness :
    WF gDemo ∧
    add_node gDemo NodeKind.cast [5] none =
      Except.error DPError.unknownInput :=
  ⟨graph_acyclic_unknown_input.1 gDemo built_gDemo,
    graph_acyclic_unknown_input.2 gDemo NodeKind.cast [5] none
      ⟨5, by decide, by decide⟩⟩

end DPCov
